import Mathlib

/-!
Verification development for the betterHardwareSwap ingestion core.

The Go sources are shallowly embedded over `List Char` (strings) and pure
environment records (collaborator oracles).  Machine-relevant details:

* Go's `regexp` class `\w` is ASCII `[0-9A-Za-z_]`; `\b` is the ASCII word
  boundary.  Both are embedded positionally.
* `strings.ToLower` / the `(?i)` regexp flag are embedded as per-character
  ASCII lowering (all corpora and terms of interest are ASCII).
* `strings.TrimSpace` is embedded as dropping leading/trailing whitespace
  characters.
-/

namespace BHS

/-- ASCII word character: Go regexp class `\w`, i.e. `[0-9A-Za-z_]`
(code points 97-122, 65-90, 48-57, 95). -/
def isWordChar (c : Char) : Bool :=
  (97 ≤ c.toNat && c.toNat ≤ 122) || (65 ≤ c.toNat && c.toNat ≤ 90) ||
  (48 ≤ c.toNat && c.toNat ≤ 57) || (c.toNat == 95)

/-- ASCII alphanumeric: the class `[a-zA-Z0-9]` used by the `isWordStart` /
`isWordEnd` probes in `containsWord` (matcher.go lines 146-147). -/
def isAlnum (c : Char) : Bool :=
  (97 ≤ c.toNat && c.toNat ≤ 122) || (65 ≤ c.toNat && c.toNat ≤ 90) ||
  (48 ≤ c.toNat && c.toNat ≤ 57)

/-- Embedding of `strings.ToLower`, per-character (ASCII). -/
def lowerStr (s : List Char) : List Char := s.map Char.toLower

/-- Embedding of `strings.TrimSpace`. -/
def trimSpace (s : List Char) : List Char :=
  ((s.dropWhile Char.isWhitespace).reverse.dropWhile Char.isWhitespace).reverse

/-- Is the character at position `i` of `s` a word character?  Out-of-range
positions (including end-of-string) count as non-word, as in RE2. -/
def wordAt (s : List Char) (i : Nat) : Bool := isWordChar (s.getD i (Char.ofNat 0))

/-- Go regexp `\b` at position `i` of `s` (positions run from 0 to `s.length`):
true iff exactly one of the characters flanking the position is a word
character, with both ends of the string treated as non-word. -/
def boundaryAt (s : List Char) (i : Nat) : Bool :=
  ((decide (0 < i)) && wordAt s (i - 1)) != wordAt s i

/-- Does `w` occur in `s` starting at position `i`? -/
def sliceEq (s w : List Char) (i : Nat) : Bool := ((s.drop i).take w.length) == w

/-- The alternation `(?:^|[^\w])` placed before an occurrence at position `i`:
start of string, or the preceding character is non-word. -/
def prevNonWord (s : List Char) (i : Nat) : Bool := (i == 0) || !(wordAt s (i - 1))

/-- The alternation `(?:$|[^\w])` placed after an occurrence ending at
position `j`: end of string, or the character at `j` is non-word. -/
def nextNonWord (s : List Char) (j : Nat) : Bool := (j == s.length) || !(wordAt s j)

/-- Shallow embedding of `(*Matcher).containsWord`
(internal/processor/matcher.go, custom-boundary variant, lines 127-168).

The Go code lower-cases and trims the term, rejects the empty term, and then
builds the case-insensitive pattern `left + QuoteMeta(term) + right` where
`left` is `\b` if the term starts with `[a-zA-Z0-9]` and `(?:^|[^\w])`
otherwise, and symmetrically for `right`; it then asks whether the pattern
matches anywhere in the corpus.  Regex matching is embedded positionally:
a match exists iff some start position carries the term with the two flank
conditions.  `QuoteMeta` needs no counterpart here because occurrence is
tested literally, and `(?i)` is embedded by lowering the corpus. -/
def containsWord (corpus word : List Char) : Bool :=
  let w := lowerStr (trimSpace word)
  if w.isEmpty then false
  else
    let s := lowerStr corpus
    (List.range (s.length + 1)).any fun i =>
      sliceEq s w i &&
      (if isAlnum (w.getD 0 (Char.ofNat 0)) then boundaryAt s i else prevNonWord s i) &&
      (if isAlnum (w.getD (w.length - 1) (Char.ofNat 0)) then boundaryAt s (i + w.length)
       else nextNonWord s (i + w.length))

/-- Shallow embedding of `(*Matcher).Matches`
(internal/processor/matcher.go lines 93-125): lower-case the corpus, then
1. fail if any `mustNot` term is present,
2. fail if any `mustHave` term is absent,
3. fail if `anyOf` is non-empty and none of its terms is present,
4. otherwise succeed.
The regex memoization in the Go code caches the compiled pattern per
normalized term and does not affect the result, so it is not part of this
functional embedding (it is modelled separately for the concurrency claim). -/
def Matches (corpus : List Char) (mustHave anyOf mustNot : List (List Char)) : Bool :=
  let c := lowerStr corpus
  if mustNot.any (fun word => containsWord c word) then false
  else if mustHave.any (fun word => !(containsWord c word)) then false
  else if (!anyOf.isEmpty) && !(anyOf.any (fun word => containsWord c word)) then false
  else true

/-- The token list of a string: its maximal runs of word characters, in
order.  This is the spec-side notion of "standalone token": a term made of
word characters occurs as a standalone token exactly when it is a member of
this list (of the lowered corpus). -/
def tokens (s : List Char) : List (List Char) :=
  match s with
  | [] => []
  | c :: cs =>
    if isWordChar c then (c :: cs.takeWhile isWordChar) :: tokens (cs.dropWhile isWordChar)
    else tokens cs
termination_by s.length
decreasing_by
  · simpa using Nat.lt_succ_of_le (List.dropWhile_suffix _).sublist.length_le
  · simp

/-- One candidate occurrence, spec side: `w` occurs at position `i` of `s`
flanked on the left by start-of-string or a non-word character and on the
right by end-of-string or a non-word character. -/
def flankedAt (s w : List Char) (i : Nat) : Bool :=
  sliceEq s w i && prevNonWord s i && nextNonWord s (i + w.length)

/-- Predicate: `w` has some flanked occurrence in `s`. -/
def occursFlanked (s w : List Char) : Prop := ∃ i, flankedAt s w i = true

/-- Spec-side presence, decomposition form: `s` splits as `pre ++ w ++ post`
where `pre` is empty or ends in a non-word character, and `post` is empty or
starts with a non-word character. -/
def presentDecomp (s w : List Char) : Prop :=
  ∃ pre post, s = pre ++ w ++ post ∧
    (∀ c ∈ pre.getLast?, isWordChar c = false) ∧
    (∀ c ∈ post.head?, isWordChar c = false)

/-! ## Pipeline data model (internal/store, internal/reddit, internal/ai)

Go maps are embedded as association lists; a collaborator's two-value
`(value, err)` returns are embedded as `Except` (or an explicit pair where
the Go code inspects both components, as `RunPipeline` does for
`GetPostRecord`). -/

/-- Structure `reddit.Post` (internal/reddit/scraper.go lines 21-33; numeric
fields kept only as far as the pipeline reads them). -/
structure Post where
  id : String
  title : String
  selfText : String
  url : String
  linkFlairText : String
  removedByByCategory : String
  thumbnail : String
deriving DecidableEq

/-- Structure `ai.CleanedPost`. -/
structure CleanedPost where
  title : String
  description : String
  price : String
  location : String
  condition : String
deriving DecidableEq

/-- Structure `store.AlertRule` (the fields the matching path reads). -/
structure AlertRule where
  userID : String
  serverID : String
  mustHave : List String
  anyOf : List String
  mustNot : List String
deriving DecidableEq

/-- Structure `store.ServerConfig`. -/
structure ServerConfig where
  feedChannelID : String
  pingChannelID : String
deriving DecidableEq

/-- Structure `store.PostRecord` as consumed by the orchestrator
(`record.CleanedTitle`, `record.ServerMsgs : map[serverID]messageID`). -/
structure PostRecord where
  redditID : String
  cleanedTitle : String
  serverMsgs : List (String × String)
deriving DecidableEq

/-- Observable collaborator calls made by one pipeline run. -/
inductive Effect where
  | classify (postID : String)
  | matchRules (postID : String)
  | getConfig (serverID : String)
  | deliverNew (channelID postID : String)
  | addReaction (channelID msgID emoji : String)
  | sendPing (channelID : String)
  | editExisting (channelID msgID : String)
  | saveRecords (postID cleanedTitle : String) (serverMsgs : List (String × String))
  | trim
deriving DecidableEq

/-- Is this effect a persistence (`SavePostRecords`) call? -/
def isSaveRecords : Effect → Bool
  | .saveRecords _ _ _ => true
  | _ => false

/-- The collaborator oracle for one run: what each external call would
return.  `getPostRecord` keeps Go's two-value shape `(record, err ≠ nil)`
because `RunPipeline` inspects both components separately.
`getServerConfig` stands for the `ConfigCache`-wrapped lookup (the cache
only changes whether the backing store is hit, which is modelled
separately); within one run it returns a fixed answer per server id. -/
structure Env where
  fetchNewestPosts : Except String (List Post)
  getAllAlerts : Except String (List AlertRule)
  getPostRecord : String → Option PostRecord × Bool
  cleanRedditPost : String → String → Except String CleanedPost
  getServerConfig : String → Except String ServerConfig
  sendEmbedWithComponents : String → Except String String
  trimOldPosts : Bool

/-- Embedding of `strings.EqualFold`, ASCII (both sides lowered). -/
def eqFold (a b : String) : Bool := lowerStr a.data == lowerStr b.data

/-- The terminal-flair test used on both pipeline paths. -/
def isSoldOrClosed (flair : String) : Bool := eqFold flair "Sold" || eqFold flair "Closed"

/-- The alerts whose rule matches the corpus (the loop body of
`findMatches`, process_new.go lines 55-59). -/
def matchedAlerts (alerts : List AlertRule) (corpus : String) : List AlertRule :=
  alerts.filter fun a =>
    Matches corpus.data (a.mustHave.map String.data) (a.anyOf.map String.data)
      (a.mustNot.map String.data)

/-- Embedding of `findMatches` (process_new.go lines 53-66): the Go map
`ServerID -> []UserID` built by appending each matching alert's user under
its server key, embedded as one entry per distinct matched server id
carrying that server's matched users in alert order (Go map iteration order
is unspecified, so entry order is a modelling choice). -/
def findMatches (alerts : List AlertRule) (corpus : String) : List (String × List String) :=
  let ms := matchedAlerts alerts corpus
  (ms.map (·.serverID)).dedup.map fun sid =>
    (sid, (ms.filter (·.serverID == sid)).map (·.userID))

/-- One iteration of the dispatch loop (process_new.go lines 113-141):
resolve the server's routing config, send the feed embed, and on success
add the two vote reactions, record the `serverID -> messageID` pair, and
ping the matched users if any. -/
def dispatchServer (env : Env) (post : Post) (sid : String) (userIDs : List String) :
    List (String × String) × List Effect :=
  match env.getServerConfig sid with
  | .error _ => ([], [.getConfig sid])
  | .ok cfg =>
    match env.sendEmbedWithComponents cfg.feedChannelID with
    | .error _ => ([], [.getConfig sid, .deliverNew cfg.feedChannelID post.id])
    | .ok msgID =>
      ([(sid, msgID)],
        [.getConfig sid, .deliverNew cfg.feedChannelID post.id,
         .addReaction cfg.feedChannelID msgID "%F0%9F%91%8D",
         .addReaction cfg.feedChannelID msgID "%F0%9F%91%8E"] ++
        (if userIDs.isEmpty then [] else [.sendPing cfg.pingChannelID]))

/-- Embedding of `dispatchToServers` (process_new.go lines 110-143): iterate the matched
servers, accumulating the successful `serverID -> messageID` pairs and the
calls made. -/
def dispatchToServers (env : Env) (post : Post) :
    List (String × List String) → List (String × String) × List Effect
  | [] => ([], [])
  | (sid, users) :: rest =>
    let head := dispatchServer env post sid users
    let tail := dispatchToServers env post rest
    (head.1 ++ tail.1, head.2 ++ tail.2)

/-- Embedding of `processNewPost` (process_new.go lines 18-51): classify via the AI
collaborator (abandoning the item on failure), build the corpus, match all
alerts, dispatch to every matched server, and persist the accumulated
`serverID -> messageID` map in a single `SavePostRecords` call if and only
if it is non-empty. -/
def processNewPost (env : Env) (post : Post) (alerts : List AlertRule) : List Effect :=
  Effect.classify post.id ::
  match env.cleanRedditPost post.title post.selfText with
  | .error _ => []
  | .ok cleaned =>
    let corpus := cleaned.title ++ " " ++ cleaned.description ++ " " ++ cleaned.location
    let d := dispatchToServers env post (findMatches alerts corpus)
    Effect.matchRules post.id ::
    (d.2 ++ (if d.1.isEmpty then [] else [Effect.saveRecords post.id cleaned.title d.1]))

/-- Embedding of `handleExistingPostStatus` (part_007 lines 109-137): when the flair is
Sold/Closed, edit the previously delivered message at every destination in
the record's delivery map, skipping destinations whose config lookup fails;
a deleted post is only logged. -/
def handleExistingPostStatus (env : Env) (post : Post) (record : PostRecord) : List Effect :=
  if isSoldOrClosed post.linkFlairText then
    record.serverMsgs.flatMap fun p =>
      match env.getServerConfig p.1 with
      | .error _ => [Effect.getConfig p.1]
      | .ok cfg => [Effect.getConfig p.1, Effect.editExisting cfg.feedChannelID p.2]
  else []

/-- The body of one `g.Go` item task (part_007 lines 73-93): look up the
record; `isNew := record == nil || err != nil`; an existing record takes the
lifecycle-update path, otherwise a not-yet-terminal post takes the new-item
path.  The closure always returns nil to the errgroup. -/
def processItem (env : Env) (alerts : List AlertRule) (post : Post) : List Effect :=
  match env.getPostRecord post.id with
  | (some record, false) => handleExistingPostStatus env post record
  | _ =>
    if post.removedByByCategory == "" && !(isSoldOrClosed post.linkFlairText) then
      processNewPost env post alerts
    else []

/-- Embedding of `RunPipeline` (part_007 lines 51-107): fetch the batch (fatal on
failure), fetch all alerts (fatal on failure), run every item task (the
errgroup interleaves the per-item traces; every closure returns nil, so
`g.Wait()` returns nil — the model serialises the traces in batch order),
then trim, whose failure is logged and never propagated. -/
def RunPipeline (env : Env) : Except String Unit × List Effect :=
  match env.fetchNewestPosts with
  | .error e => (.error ("failed to fetch reddit: " ++ e), [])
  | .ok posts =>
    match env.getAllAlerts with
    | .error e => (.error ("failed to load alerts: " ++ e), [])
    | .ok alerts => (.ok (), (posts.flatMap (processItem env alerts)) ++ [Effect.trim])

/-! ## Routing cache (part_008) -/

/-- A cached entry: `cacheItem` (part_008 lines 19-22), with time as `Nat`. -/
structure CacheItem where
  config : ServerConfig
  expiresAt : Nat
deriving DecidableEq

/-- State of `ConfigCache` (part_008 lines 12-17); the Go map is an
association list with unique keys maintained by `setItem`. -/
structure ConfigCache where
  items : List (String × CacheItem)
  ttl : Nat
deriving DecidableEq

/-- Go map read `c.items[serverID]`. -/
def lookupItem (c : ConfigCache) (sid : String) : Option CacheItem :=
  (c.items.find? (fun p => p.1 == sid)).map (·.2)

/-- Go map write `c.items[serverID] = item`. -/
def setItem (items : List (String × CacheItem)) (sid : String) (it : CacheItem) :
    List (String × CacheItem) :=
  (sid, it) :: items.filter (fun p => !(p.1 == sid))

/-- Embedding of `(*ConfigCache).GetServerConfig` (part_008 lines 32-55): return a cached
entry while `now < expiresAt`; otherwise consult the backing store (`fetch`
is its answer), propagating failure without touching the cache and storing
success with `expiresAt = now + ttl`.  Result: the returned value, the new
cache state, and whether the backing store was consulted. -/
def GetServerConfig (c : ConfigCache) (now : Nat) (fetch : Except String ServerConfig)
    (sid : String) : Except String ServerConfig × ConfigCache × Bool :=
  match lookupItem c sid with
  | some item =>
    if now < item.expiresAt then (.ok item.config, c, false)
    else
      match fetch with
      | .error e => (.error e, c, true)
      | .ok cfg => (.ok cfg, ⟨setItem c.items sid ⟨cfg, now + c.ttl⟩, c.ttl⟩, true)
  | none =>
    match fetch with
    | .error e => (.error e, c, true)
    | .ok cfg => (.ok cfg, ⟨setItem c.items sid ⟨cfg, now + c.ttl⟩, c.ttl⟩, true)

/-! ## Shared-state access model for the pattern cache

`Matcher` (matcher.go lines 8-11) holds only `patterns map[string]*regexp.Regexp`
— no mutex — and `containsWord` reads the map and, on a miss, writes the
compiled pattern back.  `globalMatcher` (process_new.go line 15) is a
package-level singleton shared by all item tasks, which `RunPipeline` runs
concurrently (`g.SetLimit(10)`).  Accesses are modelled with the lock set
each one holds; two conflicting accesses from different tasks with no
common lock form a data race. -/

inductive AccessKind where
  | read
  | write
deriving DecidableEq

structure Access where
  task : Nat
  location : String
  kind : AccessKind
  locks : List String
deriving DecidableEq

/-- Two accesses conflict when different tasks touch the same location and
at least one writes. -/
def conflicts (a b : Access) : Bool :=
  (!(a.task == b.task)) && (a.location == b.location) &&
  ((a.kind == AccessKind.write) || (b.kind == AccessKind.write))

/-- A trace has a data race when two conflicting accesses hold no lock in
common. -/
def hasDataRace (tr : List Access) : Prop :=
  ∃ a ∈ tr, ∃ b ∈ tr, conflicts a b = true ∧ ∀ l ∈ a.locks, l ∉ b.locks

/-- The lock set `containsWord` holds while touching `m.patterns`: the
`Matcher` struct declares no mutex and the method takes none. -/
def matcherLocks : List String := []

/-- The accesses one `containsWord` call performs on the shared
`globalMatcher.patterns` map from a given item task: the cache probe
(matcher.go line 135) and, when the term was not yet cached, the write of
the compiled pattern (line 164). -/
def containsWordAccesses (task : Nat) (cached : Bool) : List Access :=
  Access.mk task "globalMatcher.patterns" AccessKind.read matcherLocks ::
  (if cached then [] else [Access.mk task "globalMatcher.patterns" AccessKind.write matcherLocks])


/-! ## Character-level lemmas -/

theorem toNat_ofNat_valid {n : Nat} (h1 : 97 ≤ n) (h2 : n ≤ 122) :
    (Char.ofNat n).toNat = n := by
  have hv : n.isValidChar := Or.inl (by omega)
  rw [Char.ofNat, dif_pos hv]
  simp [Char.ofNatAux, Char.toNat, UInt32.toNat]

theorem toNat_toLower (c : Char) :
    (Char.toLower c).toNat = if 65 ≤ c.toNat ∧ c.toNat ≤ 90 then c.toNat + 32 else c.toNat := by
  unfold Char.toLower
  split
  · next h => rw [if_pos h]; exact toNat_ofNat_valid (by omega) (by omega)
  · next h => rw [if_neg h]

theorem toLower_eq_self (c : Char) (h : ¬(65 ≤ c.toNat ∧ c.toNat ≤ 90)) :
    Char.toLower c = c := by
  unfold Char.toLower
  exact if_neg h

theorem toLower_toLower (c : Char) : (Char.toLower c).toLower = Char.toLower c := by
  by_cases h : 65 ≤ c.toNat ∧ c.toNat ≤ 90
  · apply toLower_eq_self
    rw [toNat_toLower, if_pos h]
    omega
  · rw [toLower_eq_self c h, toLower_eq_self c h]

theorem lowerStr_idem (s : List Char) : lowerStr (lowerStr s) = lowerStr s := by
  simp only [lowerStr, List.map_map, Function.comp]
  exact List.map_congr_left fun c _ => toLower_toLower c

theorem isWordChar_toLower (c : Char) : isWordChar (Char.toLower c) = isWordChar c := by
  have h := toNat_toLower c
  by_cases hu : 65 ≤ c.toNat ∧ c.toNat ≤ 90
  · rw [if_pos hu] at h
    simp only [isWordChar, h]
    have : (97 ≤ c.toNat + 32 && c.toNat + 32 ≤ 122) = true := by
      simp; omega
    simp only [this]
    simp; omega
  · rw [toLower_eq_self c hu]

theorem wordChar_not_ws {c : Char} (h : isWordChar c = true) : c.isWhitespace = false := by
  have hn : 48 ≤ c.toNat := by
    simp only [isWordChar, Bool.or_eq_true, Bool.and_eq_true, decide_eq_true_eq,
      beq_iff_eq] at h
    omega
  simp only [Char.isWhitespace, Bool.or_eq_false_iff, decide_eq_false_iff_not]
  refine ⟨⟨⟨?_, ?_⟩, ?_⟩, ?_⟩ <;> (intro he; subst he; revert hn; decide)

theorem dropWhile_eq_self_of_none {p : Char → Bool} {l : List Char}
    (h : ∀ c ∈ l, p c = false) : l.dropWhile p = l := by
  cases l with
  | nil => rfl
  | cons a l =>
    have ha := h a (List.mem_cons_self a l)
    rw [List.dropWhile_cons_of_neg (by simp [ha])]

theorem trimSpace_eq_self {t : List Char} (h : ∀ c ∈ t, c.isWhitespace = false) :
    trimSpace t = t := by
  unfold trimSpace
  rw [dropWhile_eq_self_of_none h, dropWhile_eq_self_of_none, List.reverse_reverse]
  intro c hc
  exact h c (List.mem_reverse.mp hc)

theorem wordAt_out {s : List Char} {j : Nat} (h : s.length ≤ j) : wordAt s j = false := by
  unfold wordAt
  rw [List.getD_eq_getElem?_getD, List.getElem?_eq_none (by omega)]
  decide

theorem prevNonWord_eq (s : List Char) (i : Nat) :
    prevNonWord s i = !((decide (0 < i)) && wordAt s (i - 1)) := by
  unfold prevNonWord
  cases i <;> simp

theorem nextNonWord_eq (s : List Char) (j : Nat) : nextNonWord s j = !(wordAt s j) := by
  unfold nextNonWord
  by_cases h : j = s.length
  · subst h
    simp [wordAt_out (Nat.le_refl _)]
  · simp [h]

theorem sliceEq_iff {s w : List Char} {i : Nat} :
    sliceEq s w i = true ↔ (s.drop i).take w.length = w := by
  unfold sliceEq
  exact beq_iff_eq

theorem sliceEq_bound {s w : List Char} {i : Nat} (hne : w ≠ [])
    (h : sliceEq s w i = true) : i + w.length ≤ s.length := by
  have := congrArg List.length (sliceEq_iff.mp h)
  rw [List.length_take, List.length_drop] at this
  have hw : 0 < w.length := List.length_pos.mpr hne
  omega

theorem sliceEq_getElem {s w : List Char} {i k : Nat} (h : sliceEq s w i = true)
    (hk : k < w.length) : s[i + k]? = w[k]? := by
  have he := sliceEq_iff.mp h
  have : ((s.drop i).take w.length)[k]? = w[k]? := by rw [he]
  rw [List.getElem?_take, if_pos hk, List.getElem?_drop] at this
  exact this

theorem sliceEq_wordAt {s w : List Char} {i k : Nat} (h : sliceEq s w i = true)
    (hk : k < w.length) : wordAt s (i + k) = wordAt w k := by
  unfold wordAt
  rw [List.getD_eq_getElem?_getD, List.getD_eq_getElem?_getD, sliceEq_getElem h hk]

theorem wordAt_cons_succ (c : Char) (s : List Char) (j : Nat) :
    wordAt (c :: s) (j + 1) = wordAt s j := by
  unfold wordAt
  rw [List.getD_cons_succ]

theorem wordAt_cons_zero (c : Char) (s : List Char) :
    wordAt (c :: s) 0 = isWordChar c := by
  unfold wordAt
  rw [List.getD_cons_zero]

theorem wordAt_append_right (u v : List Char) (k : Nat) :
    wordAt (u ++ v) (u.length + k) = wordAt v k := by
  unfold wordAt
  rw [List.getD_append_right _ _ _ _ (Nat.le_add_right _ _)]
  simp

theorem wordAt_append_left {u : List Char} (v : List Char) {k : Nat} (h : k < u.length) :
    wordAt (u ++ v) k = wordAt u k := by
  unfold wordAt
  rw [List.getD_append _ _ _ _ h]

theorem wordAt_mem_run {R : List Char} (hR : ∀ ch ∈ R, isWordChar ch = true)
    {k : Nat} (hk : k < R.length) : wordAt R k = true := by
  unfold wordAt
  rw [List.getD_eq_getElem _ _ hk]
  exact hR _ (List.getElem_mem hk)

theorem sliceEq_append (u v w : List Char) (k : Nat) :
    sliceEq (u ++ v) w (u.length + k) = sliceEq v w k := by
  unfold sliceEq
  rw [List.drop_append]

theorem flankedAt_append (u v w : List Char) {k : Nat} (hk : 1 ≤ k) :
    flankedAt (u ++ v) w (u.length + k) = flankedAt v w k := by
  unfold flankedAt
  rw [sliceEq_append, prevNonWord_eq, prevNonWord_eq, nextNonWord_eq, nextNonWord_eq]
  have h1 : u.length + k - 1 = u.length + (k - 1) := by omega
  have h2 : u.length + k + w.length = u.length + (k + w.length) := by omega
  rw [h1, h2, wordAt_append_right, wordAt_append_right]
  have h3 : decide (0 < u.length + k) = true := by simp; omega
  have h4 : decide (0 < k) = true := by simp; omega
  rw [h3, h4]

theorem wordAt_dropWhile_zero (l : List Char) :
    wordAt (l.dropWhile isWordChar) 0 = false := by
  induction l with
  | nil => decide
  | cons a l ih =>
    by_cases h : isWordChar a = true
    · rw [List.dropWhile_cons_of_pos h]
      exact ih
    · rw [List.dropWhile_cons_of_neg h, wordAt_cons_zero]
      simpa using h

theorem takeWhile_run {w : List Char} (hw : ∀ c ∈ w, isWordChar c = true) :
    ∀ {s : List Char}, sliceEq s w 0 = true → wordAt s w.length = false →
    s.takeWhile isWordChar = w := by
  induction w with
  | nil =>
    intro s _ h0
    cases s with
    | nil => rfl
    | cons a l =>
      rw [List.length_nil, wordAt_cons_zero] at h0
      rw [List.takeWhile_cons_of_neg (by simp [h0])]
  | cons b w' ih =>
    intro s hs h0
    cases s with
    | nil =>
      rw [sliceEq_iff] at hs
      simp at hs
    | cons a s' =>
      rw [sliceEq_iff] at hs
      simp only [List.drop_zero, List.length_cons, List.take_succ_cons, List.cons.injEq] at hs
      obtain ⟨rfl, hs'⟩ := hs
      have hb : isWordChar a = true := hw a (List.mem_cons_self _ _)
      rw [List.takeWhile_cons_of_pos hb]
      congr 1
      refine ih (fun c hc => hw c (List.mem_cons_of_mem _ hc)) ?_ ?_
      · rw [sliceEq_iff, List.drop_zero]
        exact hs'
      · rw [List.length_cons, wordAt_cons_succ] at h0
        exact h0


theorem flankedAt_parts {s w : List Char} {i : Nat} (h : flankedAt s w i = true) :
    sliceEq s w i = true ∧ prevNonWord s i = true ∧ nextNonWord s (i + w.length) = true := by
  unfold flankedAt at h
  simp only [Bool.and_eq_true] at h
  exact ⟨h.1.1, h.1.2, h.2⟩

theorem flankedAt_mk {s w : List Char} {i : Nat} (h1 : sliceEq s w i = true)
    (h2 : prevNonWord s i = true) (h3 : nextNonWord s (i + w.length) = true) :
    flankedAt s w i = true := by
  unfold flankedAt
  simp only [Bool.and_eq_true]
  exact ⟨⟨h1, h2⟩, h3⟩

theorem occursFlanked_nil {w : List Char} (hne : w ≠ []) : ¬ occursFlanked [] w := by
  rintro ⟨i, hf⟩
  have hs := (flankedAt_parts hf).1
  rw [sliceEq_iff] at hs
  simp at hs
  exact hne hs

theorem occursFlanked_cons_nonword {c : Char} {cs w : List Char}
    (hc : isWordChar c = false) (hw : ∀ ch ∈ w, isWordChar ch = true) (hne : w ≠ []) :
    occursFlanked (c :: cs) w ↔ occursFlanked cs w := by
  have hwlen : 0 < w.length := List.length_pos.mpr hne
  have hw0 : wordAt w 0 = true := wordAt_mem_run hw hwlen
  constructor
  · rintro ⟨i, hf⟩
    obtain ⟨hs, hp, hn⟩ := flankedAt_parts hf
    cases i with
    | zero =>
      have := sliceEq_wordAt hs hwlen
      rw [Nat.add_zero, wordAt_cons_zero, hc] at this
      rw [hw0] at this
      exact absurd this (by simp)
    | succ k =>
      cases k with
      | zero =>
        refine ⟨0, flankedAt_mk ?_ ?_ ?_⟩
        · have := sliceEq_append [c] cs w 0
          simpa using hs ▸ (by simpa using this)
        · rfl
        · rw [nextNonWord_eq]
          rw [nextNonWord_eq] at hn
          have : (1 : Nat) + w.length = 0 + w.length + 1 := by omega
          rw [this, wordAt_cons_succ] at hn
          simpa using hn
      | succ k' =>
        refine ⟨k' + 1, ?_⟩
        have heq := flankedAt_append [c] cs w (k := k' + 1) (by omega)
        simp only [List.length_cons, List.length_nil, List.singleton_append] at heq
        rw [(by omega : (1:Nat) + (k' + 1) = k' + 1 + 1)] at heq
        rw [← heq]
        exact hf
  · rintro ⟨k, hf⟩
    cases k with
    | zero =>
      obtain ⟨hs, _, hn⟩ := flankedAt_parts hf
      refine ⟨1, flankedAt_mk ?_ ?_ ?_⟩
      · have := sliceEq_append [c] cs w 0
        simp only [List.length_cons, List.length_nil] at this
        simpa [this] using hs
      · rw [prevNonWord_eq]
        simp [wordAt_cons_zero, hc]
      · rw [nextNonWord_eq]
        rw [nextNonWord_eq] at hn
        have : (1 : Nat) + w.length = 0 + w.length + 1 := by omega
        rw [this, wordAt_cons_succ]
        simpa using hn
    | succ k' =>
      refine ⟨k' + 1 + 1, ?_⟩
      have heq := flankedAt_append [c] cs w (k := k' + 1) (by omega)
      simp only [List.length_cons, List.length_nil, List.singleton_append] at heq
      rw [(by omega : (1:Nat) + (k' + 1) = k' + 1 + 1)] at heq
      rw [heq]
      exact hf

theorem occursFlanked_cons_word {c : Char} {cs w : List Char}
    (hc : isWordChar c = true) (hw : ∀ ch ∈ w, isWordChar ch = true) (hne : w ≠ []) :
    occursFlanked (c :: cs) w ↔
      (w = c :: cs.takeWhile isWordChar ∨ occursFlanked (cs.dropWhile isWordChar) w) := by
  have hwlen : 0 < w.length := List.length_pos.mpr hne
  have hw0 : wordAt w 0 = true := wordAt_mem_run hw hwlen
  set R : List Char := c :: cs.takeWhile isWordChar with hR
  set r : List Char := cs.dropWhile isWordChar with hr
  have hsplit : c :: cs = R ++ r := by
    rw [hR, hr]
    simp [List.takeWhile_append_dropWhile]
  have hRword : ∀ ch ∈ R, isWordChar ch = true := by
    intro ch hch
    rcases List.mem_cons.mp hch with h | h
    · exact h ▸ hc
    · exact List.mem_takeWhile_imp h
  have hr0 : wordAt r 0 = false := wordAt_dropWhile_zero cs
  constructor
  · rintro ⟨i, hf⟩
    obtain ⟨hs, hp, hn⟩ := flankedAt_parts hf
    by_cases hi0 : i = 0
    · subst hi0
      left
      have htw : List.takeWhile isWordChar (c :: cs) = w := by
        refine takeWhile_run hw hs ?_
        rw [nextNonWord_eq, Nat.zero_add] at hn
        simpa using hn
      rw [List.takeWhile_cons_of_pos hc] at htw
      exact htw.symm
    · right
      have hge : R.length + 1 ≤ i := by
        by_contra hlt
        push_neg at hlt
        have h1 : 1 ≤ i := Nat.one_le_iff_ne_zero.mpr hi0
        have hidx : i - 1 < R.length := by omega
        have hword : wordAt (c :: cs) (i - 1) = true := by
          rw [hsplit, wordAt_append_left r hidx]
          exact wordAt_mem_run hRword hidx
        rw [prevNonWord_eq, hword] at hp
        simp at hp
        omega
      refine ⟨i - R.length, ?_⟩
      have heq := flankedAt_append R r w (k := i - R.length) (by omega)
      rw [(by omega : R.length + (i - R.length) = i)] at heq
      rw [← heq, ← hsplit]
      exact hf
  · rintro (hwR | ⟨k, hf⟩)
    · refine ⟨0, flankedAt_mk ?_ ?_ ?_⟩
      · rw [sliceEq_iff, List.drop_zero, hwR, hsplit]
        exact List.take_left _ _
      · rfl
      · rw [nextNonWord_eq, Nat.zero_add, hwR, hsplit,
          (by omega : R.length = R.length + 0), wordAt_append_right, hr0]
        rfl
    · obtain ⟨hs', hp', hn'⟩ := flankedAt_parts hf
      have hk1 : 1 ≤ k := by
        by_contra hk0
        push_neg at hk0
        interval_cases k
        have hcontra := sliceEq_wordAt hs' hwlen
        simp only [Nat.add_zero] at hcontra
        rw [hr0, hw0] at hcontra
        simp at hcontra
      refine ⟨R.length + k, ?_⟩
      rw [hsplit, flankedAt_append R r w hk1]
      exact hf

theorem occursFlanked_iff_mem_tokens {w : List Char}
    (hw : ∀ ch ∈ w, isWordChar ch = true) (hne : w ≠ []) :
    ∀ s : List Char, occursFlanked s w ↔ w ∈ tokens s := by
  intro s
  induction s using tokens.induct with
  | case1 =>
    rw [tokens]
    simp only [List.not_mem_nil, iff_false]
    exact occursFlanked_nil hne
  | case2 c cs hc ih =>
    rw [tokens, if_pos hc]
    rw [occursFlanked_cons_word hc hw hne, List.mem_cons]
    exact or_congr Iff.rfl ih
  | case3 c cs hc ih =>
    rw [tokens, if_neg hc]
    rw [occursFlanked_cons_nonword (by simpa using hc) hw hne]
    exact ih


theorem isAlnum_isWordChar {c : Char} (h : isAlnum c = true) : isWordChar c = true := by
  simp only [isAlnum, Bool.or_eq_true, Bool.and_eq_true, decide_eq_true_eq] at h
  simp only [isWordChar, Bool.or_eq_true, Bool.and_eq_true, decide_eq_true_eq, beq_iff_eq]
  omega

theorem boundaryAt_eq_prev {s : List Char} {i : Nat} (h : wordAt s i = true) :
    boundaryAt s i = prevNonWord s i := by
  unfold boundaryAt
  rw [h, prevNonWord_eq]
  cases (decide (0 < i) && wordAt s (i - 1)) <;> rfl

theorem boundaryAt_eq_next {s : List Char} {j : Nat} (h1 : 1 ≤ j)
    (h : wordAt s (j - 1) = true) : boundaryAt s j = nextNonWord s j := by
  unfold boundaryAt
  rw [h, nextNonWord_eq]
  have : decide (0 < j) = true := by simpa using h1
  rw [this]
  cases wordAt s j <;> rfl

theorem bodyCond_eq_flanked {s w : List Char} (hne : w ≠ []) (i : Nat) :
    (sliceEq s w i &&
      (if isAlnum (w.getD 0 (Char.ofNat 0)) then boundaryAt s i else prevNonWord s i) &&
      (if isAlnum (w.getD (w.length - 1) (Char.ofNat 0)) then boundaryAt s (i + w.length)
       else nextNonWord s (i + w.length))) = flankedAt s w i := by
  have hwlen : 0 < w.length := List.length_pos.mpr hne
  by_cases hs : sliceEq s w i = true
  · have hL :
        (if isAlnum (w.getD 0 (Char.ofNat 0)) then boundaryAt s i else prevNonWord s i) =
          prevNonWord s i := by
      by_cases ha : isAlnum (w.getD 0 (Char.ofNat 0)) = true
      · rw [if_pos ha]
        refine boundaryAt_eq_prev ?_
        have := sliceEq_wordAt hs hwlen
        rw [Nat.add_zero] at this
        rw [this]
        unfold wordAt
        exact isAlnum_isWordChar ha
      · rw [if_neg ha]
    have hR :
        (if isAlnum (w.getD (w.length - 1) (Char.ofNat 0)) then boundaryAt s (i + w.length)
         else nextNonWord s (i + w.length)) = nextNonWord s (i + w.length) := by
      by_cases ha : isAlnum (w.getD (w.length - 1) (Char.ofNat 0)) = true
      · rw [if_pos ha]
        refine boundaryAt_eq_next (by omega) ?_
        have hk : w.length - 1 < w.length := by omega
        have := sliceEq_wordAt hs hk
        rw [(by omega : i + w.length - 1 = i + (w.length - 1))]
        rw [this]
        unfold wordAt
        rw [List.getD_eq_getElem?_getD, List.getElem?_eq_getElem hk, Option.getD_some]
        rw [List.getD_eq_getElem?_getD, List.getElem?_eq_getElem hk, Option.getD_some] at ha
        exact isAlnum_isWordChar ha
      · rw [if_neg ha]
    rw [hL, hR]
    rfl
  · have hs' : sliceEq s w i = false := by simpa using hs
    unfold flankedAt
    rw [hs']
    simp

theorem containsWord_iff {corpus word : List Char} :
    containsWord corpus word = true ↔
      (lowerStr (trimSpace word) ≠ [] ∧
        occursFlanked (lowerStr corpus) (lowerStr (trimSpace word))) := by
  set w : List Char := lowerStr (trimSpace word) with hwdef
  set s : List Char := lowerStr corpus with hsdef
  by_cases hE : w.isEmpty
  · have hwnil : w = [] := by simpa [List.isEmpty_iff] using hE
    rw [containsWord]
    rw [← hwdef, ← hsdef, hE]
    simp [hwnil]
  · have hne : w ≠ [] := by simpa [List.isEmpty_iff] using hE
    rw [containsWord]
    rw [← hwdef, ← hsdef]
    rw [if_neg (by simp [hE])]
    rw [List.any_eq_true]
    constructor
    · rintro ⟨i, _, hbody⟩
      refine ⟨hne, i, ?_⟩
      rw [← bodyCond_eq_flanked hne i]
      exact hbody
    · rintro ⟨_, i, hf⟩
      have hbound := sliceEq_bound hne (flankedAt_parts hf).1
      refine ⟨i, List.mem_range.mpr (by omega), ?_⟩
      rw [bodyCond_eq_flanked hne i]
      exact hf

theorem occursFlanked_iff_presentDecomp {s w : List Char} (hne : w ≠ []) :
    occursFlanked s w ↔ presentDecomp s w := by
  have hwlen : 0 < w.length := List.length_pos.mpr hne
  constructor
  · rintro ⟨i, hf⟩
    obtain ⟨hs, hp, hn⟩ := flankedAt_parts hf
    have hbound : i + w.length ≤ s.length := sliceEq_bound hne hs
    refine ⟨s.take i, s.drop (i + w.length), ?_, ?_, ?_⟩
    · have h1 : (s.drop i).take w.length = w := sliceEq_iff.mp hs
      have h2 : (s.drop i).drop w.length = s.drop (i + w.length) := by
        rw [List.drop_drop]
      have h3 := List.take_append_drop w.length (s.drop i)
      rw [h1, h2] at h3
      rw [List.append_assoc, h3, List.take_append_drop]
    · intro c hc
      rcases Nat.eq_zero_or_pos i with hi0 | hi1
      · subst hi0
        simp at hc
      · rw [List.getLast?_eq_getElem?] at hc
        have hlen : (s.take i).length = i := by
          rw [List.length_take]
          exact Nat.min_eq_left (by omega)
        rw [hlen, List.getElem?_take, if_pos (by omega)] at hc
        rw [prevNonWord_eq] at hp
        have hword : wordAt s (i - 1) = false := by
          rcases Bool.eq_false_or_eq_true (wordAt s (i - 1)) with h | h
          · rw [h] at hp
            simp at hp
            omega
          · exact h
        unfold wordAt at hword
        rw [List.getD_eq_getElem?_getD, Option.mem_def.mp hc] at hword
        exact hword
    · intro c hc
      rw [List.head?_eq_getElem?, List.getElem?_drop, Nat.add_zero] at hc
      rw [nextNonWord_eq] at hn
      have hword : wordAt s (i + w.length) = false := by simpa using hn
      unfold wordAt at hword
      rw [List.getD_eq_getElem?_getD, Option.mem_def.mp hc] at hword
      exact hword
  · rintro ⟨pre, post, hsplit, hpre, hpost⟩
    refine ⟨pre.length, flankedAt_mk ?_ ?_ ?_⟩
    · rw [sliceEq_iff, hsplit, List.append_assoc, List.drop_left, List.take_left]
    · rw [prevNonWord_eq]
      by_cases hpe : pre = []
      · simp [hpe]
      · have hplen : 0 < pre.length := List.length_pos.mpr hpe
        obtain ⟨b, hb⟩ : ∃ b, pre.getLast? = some b :=
          ⟨pre.getLast hpe, List.getLast?_eq_getLast pre hpe⟩
        have hbw : isWordChar b = false := hpre b (Option.mem_def.mpr hb)
        have hword : wordAt s (pre.length - 1) = false := by
          rw [hsplit, List.append_assoc, wordAt_append_left _ (by omega)]
          rw [List.getLast?_eq_getElem?] at hb
          unfold wordAt
          rw [List.getD_eq_getElem?_getD, hb]
          exact hbw
        rw [hword]
        simp
    · rw [nextNonWord_eq, hsplit]
      have hword : wordAt (pre ++ w ++ post) (pre.length + w.length) = false := by
        have hlen : (pre ++ w).length = pre.length + w.length := by
          rw [List.length_append]
        rw [(by omega : pre.length + w.length = pre.length + w.length + 0), ← hlen]
        rw [List.append_assoc, ← List.append_assoc, wordAt_append_right]
        cases hpo : post with
        | nil => exact wordAt_out (by simp)
        | cons a l =>
          rw [wordAt_cons_zero]
          exact hpost a (by rw [hpo]; simp)
      rw [hword]
      simp

theorem Matches_single (corpus t : List Char) :
    Matches corpus [t] [] [] = containsWord (lowerStr corpus) t := by
  rw [Matches]
  cases h : containsWord (lowerStr corpus) t <;> simp [h]


theorem lowerStr_wordChars {t : List Char} (hw : ∀ c ∈ t, isWordChar c = true) :
    ∀ c ∈ lowerStr t, isWordChar c = true := by
  intro c hc
  obtain ⟨a, ha, rfl⟩ := List.mem_map.mp hc
  rw [isWordChar_toLower]
  exact hw a ha

/-- Claim C1: for every non-empty all-word-character term `t`,
`Matches(corpus, [t], [], [])` holds exactly when (the lowering of) `t` is a
standalone token of the lowered corpus — so a term occurring only inside a
longer token (such as `3080` inside `3080ti`) does not match, and a
standalone occurrence does; together with the four literal rule scenarios
over the corpus `"Selling my RTX 3080ti for $500 in Toronto. BNIB."`. -/
theorem matches_iff_standalone_token :
    (∀ (corpus t : List Char), t ≠ [] → (∀ c ∈ t, isWordChar c = true) →
      (Matches corpus [t] [] [] = true ↔ lowerStr t ∈ tokens (lowerStr corpus))) ∧
    Matches "Selling my RTX 3080ti for $500 in Toronto. BNIB.".data
      ["3080".data] [] [] = false ∧
    Matches "Selling my RTX 3080ti for $500 in Toronto. BNIB.".data
      [] ["toronto".data, "vancouver".data] [] = true ∧
    Matches "Selling my RTX 3080ti for $500 in Toronto. BNIB.".data
      ["bnib".data] ["3080ti".data] [] = true ∧
    Matches "Selling my RTX 3080ti for $500 in Toronto. BNIB.".data
      ["3080ti".data] [] ["bnib".data] = false := by
  refine ⟨?_, by decide, by decide, by decide, by decide⟩
  intro corpus t hne hw
  rw [Matches_single, containsWord_iff]
  have htrim : trimSpace t = t := trimSpace_eq_self (fun c hc => wordChar_not_ws (hw c hc))
  rw [htrim, lowerStr_idem]
  have hlw : ∀ c ∈ lowerStr t, isWordChar c = true := lowerStr_wordChars hw
  have hlne : lowerStr t ≠ [] := by
    simp [lowerStr]
    exact hne
  rw [occursFlanked_iff_mem_tokens hlw hlne (lowerStr corpus)]
  simp [hlne]

/-- Witness for C1: the universal component applied at a concrete corpus and
term, with each hypothesis discharged by evaluation. -/
theorem matches_iff_standalone_token_witness :
    lowerStr "3080ti".data ∈ tokens (lowerStr "got an rtx 3080ti here".data) :=
  (matches_iff_standalone_token.1 "got an rtx 3080ti here".data "3080ti".data
    (by decide) (by decide)).mp (by decide)

/-- Claim C2: `mustNot` always overrides — whenever some `mustNot` term is
present in the corpus (per the matcher's own presence test), `Matches`
returns false regardless of the `mustHave` and `anyOf` clauses. -/
theorem mustNot_overrides (corpus : List Char) (mustHave anyOf mustNot : List (List Char))
    (w : List Char) (hmem : w ∈ mustNot)
    (hpres : containsWord (lowerStr corpus) w = true) :
    Matches corpus mustHave anyOf mustNot = false := by
  rw [Matches]
  rw [if_pos (List.any_eq_true.mpr ⟨w, hmem, hpres⟩)]

/-- Witness for C2: a corpus satisfying the `mustHave` and `anyOf` clauses is
still rejected because a `mustNot` term is present. -/
theorem mustNot_overrides_witness :
    Matches "selling a bnib gpu today".data
      ["gpu".data] ["today".data] ["bnib".data] = false :=
  mustNot_overrides "selling a bnib gpu today".data
    ["gpu".data] ["today".data] ["bnib".data] "bnib".data (by decide) (by decide)

/-- Claim C3: the matcher's presence test holds exactly when the normalized
term is non-empty and the lowered corpus splits as `pre ++ term ++ post`
with `pre` empty or ending in a non-word character and `post` empty or
starting with one — the uniform flank condition that the `\b` and
`(?:^|[^\w])` / `(?:$|[^\w])` pattern branches both reduce to, so a
punctuation-leading term still matches after a space; together with the
literal example that `$500` is present in `for $500 in Toronto`. -/
theorem presence_iff_flanked_decomp :
    (∀ corpus word : List Char,
      containsWord corpus word = true ↔
        (lowerStr (trimSpace word) ≠ [] ∧
          presentDecomp (lowerStr corpus) (lowerStr (trimSpace word)))) ∧
    containsWord "for $500 in Toronto".data "$500".data = true := by
  refine ⟨?_, by decide⟩
  intro corpus word
  rw [containsWord_iff]
  by_cases hne : lowerStr (trimSpace word) = []
  · simp [hne]
  · exact and_congr_right fun _ => occursFlanked_iff_presentDecomp hne

/-- Witness for C3: the decomposition direction applied at the literal
example, with the split exhibited explicitly. -/
theorem presence_iff_flanked_decomp_witness :
    containsWord "it costs $500 total".data "$500".data = true :=
  (presence_iff_flanked_decomp.1 "it costs $500 total".data "$500".data).mpr
    ⟨by decide,
     ⟨"it costs ".data, " total".data, by decide,
      by intro c hc; simp at hc; subst hc; decide,
      by intro c hc; simp at hc; subst hc; decide⟩⟩



/-! ## Pipeline lemmas -/

theorem mem_handleExisting_shape {env : Env} {post : Post} {record : PostRecord}
    {e : Effect} (he : e ∈ handleExistingPostStatus env post record) :
    (∃ sid, e = Effect.getConfig sid) ∨ (∃ ch m, e = Effect.editExisting ch m) := by
  unfold handleExistingPostStatus at he
  by_cases hterm : isSoldOrClosed post.linkFlairText = true
  · rw [if_pos hterm] at he
    obtain ⟨p, _, hp⟩ := List.mem_flatMap.mp he
    cases hcfg : env.getServerConfig p.1 <;> rw [hcfg] at hp <;> simp at hp
    · exact Or.inl ⟨p.1, hp⟩
    · rcases hp with hp | hp
      · exact Or.inl ⟨p.1, hp⟩
      · exact Or.inr ⟨_, _, hp⟩
  · rw [if_neg hterm] at he
    simp at he

theorem mem_dispatch_shape {env : Env} {post : Post} {e : Effect} :
    ∀ {ms : List (String × List String)}, e ∈ (dispatchToServers env post ms).2 →
    (∃ s, e = Effect.getConfig s) ∨ (∃ ch, e = Effect.deliverNew ch post.id) ∨
    (∃ ch m em, e = Effect.addReaction ch m em) ∨ (∃ ch, e = Effect.sendPing ch) := by
  intro ms
  induction ms with
  | nil => intro he; simp [dispatchToServers] at he
  | cons hd tl ih =>
    intro he
    obtain ⟨sid, users⟩ := hd
    rw [dispatchToServers] at he
    simp only [List.mem_append] at he
    rcases he with he | he
    · unfold dispatchServer at he
      split at he
      · simp at he
        exact Or.inl ⟨sid, he⟩
      · next cfg _ =>
        split at he
        · simp at he
          rcases he with he | he
          · exact Or.inl ⟨sid, he⟩
          · exact Or.inr (Or.inl ⟨cfg.feedChannelID, he⟩)
        · simp at he
          rcases he with he | he | he | he | ⟨-, he⟩
          · exact Or.inl ⟨sid, he⟩
          · exact Or.inr (Or.inl ⟨cfg.feedChannelID, he⟩)
          · exact Or.inr (Or.inr (Or.inl ⟨_, _, _, he⟩))
          · exact Or.inr (Or.inr (Or.inl ⟨_, _, _, he⟩))
          · exact Or.inr (Or.inr (Or.inr ⟨_, he⟩))
    · exact ih he

theorem mem_processNewPost_shape {env : Env} {post : Post} {alerts : List AlertRule}
    {e : Effect} (he : e ∈ processNewPost env post alerts) :
    e = Effect.classify post.id ∨ e = Effect.matchRules post.id ∨
    (∃ s, e = Effect.getConfig s) ∨ (∃ ch, e = Effect.deliverNew ch post.id) ∨
    (∃ ch m em, e = Effect.addReaction ch m em) ∨ (∃ ch, e = Effect.sendPing ch) ∨
    (∃ title msgs, e = Effect.saveRecords post.id title msgs) := by
  unfold processNewPost at he
  rw [List.mem_cons] at he
  rcases he with he | he
  · exact Or.inl he
  · cases hclean : env.cleanRedditPost post.title post.selfText <;> rw [hclean] at he
    · simp at he
    · next cleaned =>
      rw [List.mem_cons] at he
      rcases he with he | he
      · exact Or.inr (Or.inl he)
      · rw [List.mem_append] at he
        rcases he with he | he
        · rcases mem_dispatch_shape he with h | h | h | h
          · exact .inr (.inr (.inl h))
          · exact .inr (.inr (.inr (.inl h)))
          · exact .inr (.inr (.inr (.inr (.inl h))))
          · exact .inr (.inr (.inr (.inr (.inr (.inl h)))))
        · split at he
          · simp at he
          · simp at he
            refine Or.inr (Or.inr (Or.inr (Or.inr (Or.inr (Or.inr ⟨_, _, he⟩)))))

theorem processItem_eq_existing {env : Env} {alerts : List AlertRule} {q : Post}
    {r : PostRecord} (h : env.getPostRecord q.id = (some r, false)) :
    processItem env alerts q = handleExistingPostStatus env q r := by
  unfold processItem
  rw [h]

theorem mem_processItem_shape {env : Env} {alerts : List AlertRule} {q : Post} {e : Effect}
    (he : e ∈ processItem env alerts q) :
    (∃ r, env.getPostRecord q.id = (some r, false) ∧ e ∈ handleExistingPostStatus env q r) ∨
    ((∀ r, env.getPostRecord q.id ≠ (some r, false)) ∧ e ∈ processNewPost env q alerts) := by
  unfold processItem at he
  split at he
  · next r heq => exact Or.inl ⟨r, heq, he⟩
  · next heq =>
    split at he
    · refine Or.inr ⟨?_, he⟩
      intro r hr
      exact heq r hr
    · simp at he

theorem sublist_flatMap {α β : Type} (f : α → List β) {l : List α} {x : α} (hx : x ∈ l) :
    (f x).Sublist (l.flatMap f) := by
  induction l with
  | nil => simp at hx
  | cons a l ih =>
    rw [List.flatMap_cons]
    rcases List.mem_cons.mp hx with h | h
    · subst h
      exact List.sublist_append_left _ _
    · exact (ih h).trans (List.sublist_append_right _ _)


/-- Claim C4: an item whose record already exists never triggers
classification, rule matching, or new-item delivery in a run, and when its
flair is terminal the run edits the previously delivered message for each
entry of the record's delivery map whose routing config resolves. -/
theorem recorded_item_idempotent (env : Env) (posts : List Post) (alerts : List AlertRule)
    (post : Post) (rec : PostRecord)
    (hfetch : env.fetchNewestPosts = .ok posts)
    (halerts : env.getAllAlerts = .ok alerts)
    (hmem : post ∈ posts)
    (hrec : env.getPostRecord post.id = (some rec, false)) :
    Effect.classify post.id ∉ (RunPipeline env).2 ∧
    Effect.matchRules post.id ∉ (RunPipeline env).2 ∧
    (∀ ch, Effect.deliverNew ch post.id ∉ (RunPipeline env).2) ∧
    (isSoldOrClosed post.linkFlairText = true →
      ∀ sid msg cfg, (sid, msg) ∈ rec.serverMsgs → env.getServerConfig sid = .ok cfg →
        Effect.editExisting cfg.feedChannelID msg ∈ (RunPipeline env).2) := by
  have htrace : (RunPipeline env).2 = posts.flatMap (processItem env alerts) ++ [Effect.trim] := by
    unfold RunPipeline
    rw [hfetch, halerts]
  have hnotrim : ∀ pid, Effect.classify pid ∉ ([Effect.trim] : List Effect) := by simp
  have key : ∀ (e : Effect),
      (e = Effect.classify post.id ∨ e = Effect.matchRules post.id ∨
        (∃ ch, e = Effect.deliverNew ch post.id)) →
      e ∉ (RunPipeline env).2 := by
    intro e hshape habs
    rw [htrace, List.mem_append] at habs
    rcases habs with habs | habs
    · obtain ⟨q, hq, he⟩ := List.mem_flatMap.mp habs
      rcases mem_processItem_shape he with ⟨r, _, he'⟩ | ⟨hnone, he'⟩
      · rcases mem_handleExisting_shape he' with ⟨sid, h⟩ | ⟨ch, m, h⟩ <;>
          rcases hshape with h' | h' | ⟨ch', h'⟩ <;> subst h' <;> simp at h
      · have hid : post.id = q.id := by
          rcases mem_processNewPost_shape he' with h | h | ⟨s, h⟩ | ⟨ch, h⟩ |
            ⟨ch, m, em, h⟩ | ⟨ch, h⟩ | ⟨ti, msgs, h⟩ <;> subst h <;>
            rcases hshape with h' | h' | ⟨ch', h'⟩ <;> simp_all
        exact hnone rec (by rw [← hid]; exact hrec)
    · rcases hshape with h' | h' | ⟨ch', h'⟩ <;> subst h' <;> simp at habs
  refine ⟨key _ (Or.inl rfl), key _ (Or.inr (Or.inl rfl)), fun ch => key _ (Or.inr (Or.inr ⟨ch, rfl⟩)), ?_⟩
  intro hterm sid msg cfg hpair hcfg
  rw [htrace, List.mem_append]
  left
  refine List.mem_flatMap.mpr ⟨post, hmem, ?_⟩
  rw [processItem_eq_existing hrec]
  unfold handleExistingPostStatus
  rw [if_pos hterm]
  refine List.mem_flatMap.mpr ⟨(sid, msg), hpair, ?_⟩
  rw [hcfg]
  simp

/-- Witness for C4: a one-item batch whose item is already recorded with
delivery map `{s1: m1}` and now carries the terminal flair: the run edits
the delivered message and never classifies the item. -/
theorem recorded_item_idempotent_witness :
    Effect.classify "p1" ∉
      (RunPipeline ⟨.ok [⟨"p1", "t", "b", "u", "Sold", "", "th"⟩], .ok [],
        fun pid => if pid == "p1" then (some ⟨"p1", "Title", [("s1", "m1")]⟩, false)
          else (none, false),
        fun _ _ => .error "down",
        fun sid => if sid == "s1" then .ok ⟨"feed1", "ping1"⟩ else .error "absent",
        fun _ => .error "down", false⟩).2 ∧
    Effect.editExisting "feed1" "m1" ∈
      (RunPipeline ⟨.ok [⟨"p1", "t", "b", "u", "Sold", "", "th"⟩], .ok [],
        fun pid => if pid == "p1" then (some ⟨"p1", "Title", [("s1", "m1")]⟩, false)
          else (none, false),
        fun _ _ => .error "down",
        fun sid => if sid == "s1" then .ok ⟨"feed1", "ping1"⟩ else .error "absent",
        fun _ => .error "down", false⟩).2 := by
  have h := recorded_item_idempotent
    ⟨.ok [⟨"p1", "t", "b", "u", "Sold", "", "th"⟩], .ok [],
      fun pid => if pid == "p1" then (some ⟨"p1", "Title", [("s1", "m1")]⟩, false)
        else (none, false),
      fun _ _ => .error "down",
      fun sid => if sid == "s1" then .ok ⟨"feed1", "ping1"⟩ else .error "absent",
      fun _ => .error "down", false⟩
    [⟨"p1", "t", "b", "u", "Sold", "", "th"⟩] []
    ⟨"p1", "t", "b", "u", "Sold", "", "th"⟩ ⟨"p1", "Title", [("s1", "m1")]⟩
    rfl rfl (by decide) (by decide)
  exact ⟨h.1, h.2.2.2 (by decide) "s1" "m1" ⟨"feed1", "ping1"⟩ (by decide) rfl⟩

/-- Claim C5: `RunPipeline` returns an error exactly when the batch fetch or
the rule-set fetch fails; when both succeed the run returns no error, its
trace is the concatenation of the independent per-item traces plus the trim
pass, and every item's own trace — deliveries and record writes included —
appears in the run regardless of any other item's failures. -/
theorem pipeline_error_iff_fetch (env : Env) :
    ((∃ e, (RunPipeline env).1 = .error e) ↔
      ((∃ e, env.fetchNewestPosts = .error e) ∨ (∃ e, env.getAllAlerts = .error e))) ∧
    (∀ posts alerts, env.fetchNewestPosts = .ok posts → env.getAllAlerts = .ok alerts →
      (RunPipeline env).1 = .ok () ∧
      (RunPipeline env).2 = posts.flatMap (processItem env alerts) ++ [Effect.trim] ∧
      ∀ q ∈ posts, (processItem env alerts q).Sublist (RunPipeline env).2) := by
  constructor
  · unfold RunPipeline
    cases hf : env.fetchNewestPosts <;> cases ha : env.getAllAlerts <;> simp
  · intro posts alerts hf ha
    have hrp : RunPipeline env =
        (.ok (), posts.flatMap (processItem env alerts) ++ [Effect.trim]) := by
      unfold RunPipeline
      rw [hf, ha]
    rw [hrp]
    exact ⟨rfl, rfl, fun q hq =>
      (sublist_flatMap _ hq).trans (List.sublist_append_left _ _)⟩

/-- Witness for C5: a two-item batch where the second item's classification
fails — the run still returns no error and the first item's delivery and
record effects all occur. -/
theorem pipeline_error_iff_fetch_witness :
    (RunPipeline ⟨.ok [⟨"g", "good", "", "", "", "", ""⟩, ⟨"b", "bad", "", "", "", "", ""⟩],
      .ok [⟨"u1", "s1", [], [], []⟩],
      fun _ => (none, false),
      fun t _ => if t == "bad" then .error "fail" else .ok ⟨"Clean", "D", "", "", ""⟩,
      fun _ => .ok ⟨"f", "p"⟩, fun _ => .ok "m1", false⟩).1 = .ok () ∧
    Effect.saveRecords "g" "Clean" [("s1", "m1")] ∈
      (RunPipeline ⟨.ok [⟨"g", "good", "", "", "", "", ""⟩, ⟨"b", "bad", "", "", "", "", ""⟩],
        .ok [⟨"u1", "s1", [], [], []⟩],
        fun _ => (none, false),
        fun t _ => if t == "bad" then .error "fail" else .ok ⟨"Clean", "D", "", "", ""⟩,
        fun _ => .ok ⟨"f", "p"⟩, fun _ => .ok "m1", false⟩).2 := by
  have h := (pipeline_error_iff_fetch
    ⟨.ok [⟨"g", "good", "", "", "", "", ""⟩, ⟨"b", "bad", "", "", "", "", ""⟩],
      .ok [⟨"u1", "s1", [], [], []⟩],
      fun _ => (none, false),
      fun t _ => if t == "bad" then .error "fail" else .ok ⟨"Clean", "D", "", "", ""⟩,
      fun _ => .ok ⟨"f", "p"⟩, fun _ => .ok "m1", false⟩).2
    [⟨"g", "good", "", "", "", "", ""⟩, ⟨"b", "bad", "", "", "", "", ""⟩]
    [⟨"u1", "s1", [], [], []⟩] rfl rfl
  refine ⟨h.1, ?_⟩
  refine (h.2.2 ⟨"g", "good", "", "", "", "", ""⟩ (by decide)).subset ?_
  decide

/-- Claim C10 (implicit): any record-lookup error — not only not-found — or a
nil record classifies the item as unseen: the task takes the new-item path
(classify, match, deliver, record) whenever the item is not already
terminal, and never the lifecycle-update path. -/
theorem record_error_takes_new_path (env : Env) (alerts : List AlertRule) (post : Post)
    (herr : (env.getPostRecord post.id).1 = none ∨ (env.getPostRecord post.id).2 = true) :
    processItem env alerts post =
      (if post.removedByByCategory == "" && !(isSoldOrClosed post.linkFlairText) then
        processNewPost env post alerts
      else []) ∧
    ((post.removedByByCategory == "" && !(isSoldOrClosed post.linkFlairText)) = true →
      Effect.classify post.id ∈ processItem env alerts post ∧
      ∀ ch m, Effect.editExisting ch m ∉ processItem env alerts post) := by
  have hmain : processItem env alerts post =
      (if post.removedByByCategory == "" && !(isSoldOrClosed post.linkFlairText) then
        processNewPost env post alerts
      else []) := by
    unfold processItem
    rcases hpr : env.getPostRecord post.id with ⟨orec, b⟩
    rw [hpr] at herr
    rcases orec with _ | r <;> cases b <;> simp at herr ⊢
  refine ⟨hmain, fun hcond => ⟨?_, ?_⟩⟩
  · rw [hmain, if_pos hcond]
    unfold processNewPost
    exact List.mem_cons_self _ _
  · intro ch m habs
    rw [hmain, if_pos hcond] at habs
    rcases mem_processNewPost_shape habs with h | h | ⟨s, h⟩ | ⟨ch', h⟩ |
      ⟨ch', m', em, h⟩ | ⟨ch', h⟩ | ⟨ti, msgs, h⟩ <;> simp at h

/-- Witness for C10: the store read fails (`err ≠ nil`) even though a record
exists — the item is still routed down the new-item path and classified. -/
theorem record_error_takes_new_path_witness :
    Effect.classify "p1" ∈
      processItem ⟨.ok [], .ok [],
        fun _ => (some ⟨"p1", "Title", [("s1", "m1")]⟩, true),
        fun _ _ => .error "down", fun _ => .error "absent",
        fun _ => .error "down", false⟩ [] ⟨"p1", "t", "b", "u", "", "", "th"⟩ :=
  ((record_error_takes_new_path
    ⟨.ok [], .ok [],
      fun _ => (some ⟨"p1", "Title", [("s1", "m1")]⟩, true),
      fun _ _ => .error "down", fun _ => .error "absent",
      fun _ => .error "down", false⟩ [] ⟨"p1", "t", "b", "u", "", "", "th"⟩
    (Or.inr rfl)).2 (by decide)).1

theorem dispatch_filter_save (env : Env) (post : Post) :
    ∀ ms : List (String × List String),
      (dispatchToServers env post ms).2.filter isSaveRecords = [] := by
  intro ms
  rw [List.filter_eq_nil_iff]
  intro e he
  rcases mem_dispatch_shape he with ⟨s, h⟩ | ⟨ch, h⟩ | ⟨ch, m, em, h⟩ | ⟨ch, h⟩ <;>
    subst h <;> simp [isSaveRecords]

theorem dispatch_msgs_mem (env : Env) (post : Post) :
    ∀ (ms : List (String × List String)) (sid m : String),
      (sid, m) ∈ (dispatchToServers env post ms).1 ↔
        ∃ users cfg, (sid, users) ∈ ms ∧ env.getServerConfig sid = .ok cfg ∧
          env.sendEmbedWithComponents cfg.feedChannelID = .ok m := by
  intro ms
  induction ms with
  | nil =>
    intro sid m
    simp [dispatchToServers]
  | cons hd tl ih =>
    intro sid m
    obtain ⟨sid', users'⟩ := hd
    rw [dispatchToServers]
    simp only [List.mem_append]
    constructor
    · rintro (hh | ht)
      · unfold dispatchServer at hh
        cases hcfg : env.getServerConfig sid' <;> rw [hcfg] at hh <;> dsimp only at hh
        · simp at hh
        · next cfg =>
          cases hsend : env.sendEmbedWithComponents cfg.feedChannelID <;>
            rw [hsend] at hh <;> dsimp only at hh
          · simp at hh
          · next msgID =>
            simp at hh
            obtain ⟨rfl, rfl⟩ := hh
            exact ⟨users', cfg, List.mem_cons_self _ _, hcfg, hsend⟩
      · obtain ⟨users, cfg, hmem, hcfg, hsend⟩ := (ih sid m).mp ht
        exact ⟨users, cfg, List.mem_cons_of_mem _ hmem, hcfg, hsend⟩
    · rintro ⟨users, cfg, hmem, hcfg, hsend⟩
      rcases List.mem_cons.mp hmem with heq | hmem'
      · left
        injection heq with h1 h2
        subst h1
        subst h2
        unfold dispatchServer
        rw [hcfg]
        dsimp only
        rw [hsend]
        simp
      · right
        exact (ih sid m).mpr ⟨users, cfg, hmem', hcfg, hsend⟩

/-- Claim C6: on the new-item path at most one persistence call is made per
item; when classification succeeds the persistence calls are exactly one
`SavePostRecords` carrying the accumulated scope-to-message map when that
map is non-empty and none otherwise; and a scope-message pair enters the
map exactly when the scope was matched, its routing config resolved, and
its primary feed delivery succeeded with that message id. -/
theorem save_records_invariant (env : Env) (post : Post) (alerts : List AlertRule) :
    ((processNewPost env post alerts).filter isSaveRecords).length ≤ 1 ∧
    (∀ cleaned, env.cleanRedditPost post.title post.selfText = .ok cleaned →
      (processNewPost env post alerts).filter isSaveRecords =
        (if (dispatchToServers env post (findMatches alerts
              (cleaned.title ++ " " ++ cleaned.description ++ " " ++ cleaned.location))).1.isEmpty
         then []
         else [Effect.saveRecords post.id cleaned.title
            (dispatchToServers env post (findMatches alerts
              (cleaned.title ++ " " ++ cleaned.description ++ " " ++ cleaned.location))).1])) ∧
    (∀ (ms : List (String × List String)) (sid m : String),
      (sid, m) ∈ (dispatchToServers env post ms).1 ↔
        ∃ users cfg, (sid, users) ∈ ms ∧ env.getServerConfig sid = .ok cfg ∧
          env.sendEmbedWithComponents cfg.feedChannelID = .ok m) := by
  have hfilter : ∀ cleaned, env.cleanRedditPost post.title post.selfText = .ok cleaned →
      (processNewPost env post alerts).filter isSaveRecords =
        (if (dispatchToServers env post (findMatches alerts
              (cleaned.title ++ " " ++ cleaned.description ++ " " ++ cleaned.location))).1.isEmpty
         then []
         else [Effect.saveRecords post.id cleaned.title
            (dispatchToServers env post (findMatches alerts
              (cleaned.title ++ " " ++ cleaned.description ++ " " ++ cleaned.location))).1]) := by
    intro cleaned hclean
    unfold processNewPost
    rw [hclean]
    dsimp only
    rw [List.filter_cons_of_neg (by simp [isSaveRecords]),
      List.filter_cons_of_neg (by simp [isSaveRecords]), List.filter_append,
      dispatch_filter_save, List.nil_append]
    split
    · simp
    · rw [List.filter_cons_of_pos (by simp [isSaveRecords])]
      simp
  refine ⟨?_, hfilter, dispatch_msgs_mem env post⟩
  cases hclean : env.cleanRedditPost post.title post.selfText with
  | error e =>
    unfold processNewPost
    rw [hclean]
    simp [isSaveRecords]
  | ok cleaned =>
    rw [hfilter cleaned hclean]
    split <;> simp

/-- Witness for C6: with one matching rule, a resolving config and a
successful feed send, exactly one persistence call with exactly the
successful pair is made. -/
theorem save_records_invariant_witness :
    (processNewPost ⟨.ok [], .ok [],
        fun _ => (none, false),
        fun _ _ => .ok ⟨"Clean", "D", "", "", ""⟩,
        fun _ => .ok ⟨"f", "p"⟩, fun _ => .ok "m1", false⟩
      ⟨"g", "good", "", "", "", "", ""⟩ [⟨"u1", "s1", [], [], []⟩]).filter isSaveRecords =
      [Effect.saveRecords "g" "Clean" [("s1", "m1")]] := by
  have h := (save_records_invariant ⟨.ok [], .ok [],
      fun _ => (none, false),
      fun _ _ => .ok ⟨"Clean", "D", "", "", ""⟩,
      fun _ => .ok ⟨"f", "p"⟩, fun _ => .ok "m1", false⟩
    ⟨"g", "good", "", "", "", "", ""⟩ [⟨"u1", "s1", [], [], []⟩]).2.1
    ⟨"Clean", "D", "", "", ""⟩ rfl
  rw [h]
  decide


/-! ## Routing-cache lemmas -/

theorem lookup_setItem (items : List (String × CacheItem)) (ttl : Nat) (sid : String)
    (it : CacheItem) : lookupItem ⟨setItem items sid it, ttl⟩ sid = some it := by
  simp [lookupItem, setItem]

/-- Claim C7: a fresh cached entry is returned without consulting the
backing store; two calls for the same scope within the TTL window cause
exactly one backing-store call; and a call after expiry consults the store
again and on success stores the value with expiry `now + TTL`. -/
theorem cache_ttl_semantics (c : ConfigCache) (now : Nat)
    (fetch : Except String ServerConfig) (sid : String) :
    (∀ item, lookupItem c sid = some item → now < item.expiresAt →
      GetServerConfig c now fetch sid = (.ok item.config, c, false)) ∧
    (∀ cfg, lookupItem c sid = none →
      (GetServerConfig c now (.ok cfg) sid).2.2 = true ∧
      (∀ now' fetch', now' < now + c.ttl →
        GetServerConfig (GetServerConfig c now (.ok cfg) sid).2.1 now' fetch' sid =
          (.ok cfg, (GetServerConfig c now (.ok cfg) sid).2.1, false))) ∧
    (∀ item cfg, lookupItem c sid = some item → item.expiresAt ≤ now →
      (GetServerConfig c now (.ok cfg) sid).2.2 = true ∧
      lookupItem (GetServerConfig c now (.ok cfg) sid).2.1 sid =
        some ⟨cfg, now + c.ttl⟩) := by
  refine ⟨?_, ?_, ?_⟩
  · intro item hit hfresh
    unfold GetServerConfig
    rw [hit]
    dsimp only
    rw [if_pos hfresh]
  · intro cfg hmiss
    have hstate : GetServerConfig c now (.ok cfg) sid =
        (.ok cfg, ⟨setItem c.items sid ⟨cfg, now + c.ttl⟩, c.ttl⟩, true) := by
      unfold GetServerConfig
      rw [hmiss]
    refine ⟨by rw [hstate], ?_⟩
    intro now' fetch' hwin
    rw [hstate]
    unfold GetServerConfig
    rw [lookup_setItem]
    dsimp only
    rw [if_pos hwin]
  · intro item cfg hit hstale
    have hcond : ¬ now < item.expiresAt := by omega
    have hstate : GetServerConfig c now (.ok cfg) sid =
        (.ok cfg, ⟨setItem c.items sid ⟨cfg, now + c.ttl⟩, c.ttl⟩, true) := by
      unfold GetServerConfig
      rw [hit]
      dsimp only
      rw [if_neg hcond]
    rw [hstate]
    exact ⟨rfl, lookup_setItem _ _ _ _⟩

/-- Witness for C7: a two-call run — the first call at time 0 on an empty
cache hits the store and caches; the second call at time 3 (within the TTL
of 5) is served from the cache without a store call. -/
theorem cache_ttl_semantics_witness :
    (GetServerConfig ⟨[], 5⟩ 0 (.ok ⟨"f", "p"⟩) "s1").2.2 = true ∧
    GetServerConfig (GetServerConfig ⟨[], 5⟩ 0 (.ok ⟨"f", "p"⟩) "s1").2.1 3
        (.error "unused") "s1" =
      (.ok ⟨"f", "p"⟩, (GetServerConfig ⟨[], 5⟩ 0 (.ok ⟨"f", "p"⟩) "s1").2.1, false) := by
  have h := (cache_ttl_semantics ⟨[], 5⟩ 0 (.ok ⟨"f", "p"⟩) "s1").2.1 ⟨"f", "p"⟩ rfl
  exact ⟨h.1, h.2 3 (.error "unused") (by decide)⟩

/-- Claim C8: when the backing store fails on a miss or stale entry, the
error is propagated, the cache is left unchanged, and every subsequent call
for that scope consults the store again until one succeeds. -/
theorem cache_error_propagates (c : ConfigCache) (now : Nat) (sid : String) (e : String)
    (hmiss : ∀ item, lookupItem c sid = some item → item.expiresAt ≤ now) :
    GetServerConfig c now (.error e) sid = (.error e, c, true) ∧
    (∀ now' fetch', now ≤ now' → (GetServerConfig c now' fetch' sid).2.2 = true) := by
  constructor
  · unfold GetServerConfig
    cases hit : lookupItem c sid with
    | none => rfl
    | some item =>
      have hstale := hmiss item hit
      dsimp only
      rw [if_neg (show ¬ now < item.expiresAt by omega)]
  · intro now' fetch' hle
    unfold GetServerConfig
    cases hit : lookupItem c sid with
    | none => cases fetch' <;> rfl
    | some item =>
      have hstale := hmiss item hit
      dsimp only
      rw [if_neg (show ¬ now' < item.expiresAt by omega)]
      cases fetch' <;> rfl

/-- Witness for C8: a failing fetch on an empty cache propagates the error
and leaves the cache empty, and the next call still consults the store. -/
theorem cache_error_propagates_witness :
    GetServerConfig ⟨[], 5⟩ 0 (.error "down") "s1" = (.error "down", ⟨[], 5⟩, true) ∧
    (GetServerConfig ⟨[], 5⟩ 7 (.ok ⟨"f", "p"⟩) "s1").2.2 = true := by
  have h := cache_error_propagates ⟨[], 5⟩ 0 "s1" "down"
    (by intro item hit; simp [lookupItem] at hit)
  exact ⟨h.1, h.2 7 (.ok ⟨"f", "p"⟩) (by omega)⟩

/-- Claim C9 (about the code as written): the `Matcher` struct has no mutex,
so two concurrent item tasks that both evaluate an uncached term against the
shared `globalMatcher` perform conflicting, unsynchronized accesses to the
pattern map — a data race, contradicting the spec's requirement that the
memoized pattern cache be guarded by a mutex or equivalent. -/
theorem matcher_cache_data_race :
    hasDataRace (containsWordAccesses 0 false ++ containsWordAccesses 1 false) := by
  refine ⟨⟨0, "globalMatcher.patterns", AccessKind.write, matcherLocks⟩, ?_,
    ⟨1, "globalMatcher.patterns", AccessKind.write, matcherLocks⟩, ?_, ?_, ?_⟩ <;>
    simp [containsWordAccesses, matcherLocks, conflicts]

end BHS
